import Mathlib

/-!
Verification of the directory/archive comparator in `directoryCompare.py`
(repository irk1/ImageDatabase).

The development shallowly embeds the comparator core:

* `list_all_files`       — enumerate the members of a source (directory walk
  or 7z archive listing), branching on the `.7z` path suffix;
* `calculate_hashes`     — SHA-256 digests of a batch of members, with the
  per-member progress trace of the `progress_callback` calls;
* `run_compare`          — the name-mode / hash-mode comparison pipeline of
  `CompareApp.run_compare`;
* `copy_files`           — the selective copy-back of `CompareApp.copy_files`.

Byte strings are `List Nat` (each entry a byte value); 32-bit machine words
are `Nat` reduced `% 2 ^ 32` wherever Python's fixed-width arithmetic matters.
Fallible operations return `Except String`, the error string naming the Python
exception that the real code would raise at that point.  The filesystem seen
by the program is a total map `String → Entity` from a path to what is found
there (a directory tree, a 7z archive, or nothing); `os.walk`, `open`,
`py7zr.SevenZipFile` and `shutil.copy2` are modelled as inspections or updates
of that map, matching Python's documented behaviour (in particular `os.walk`
on a nonexistent path silently yields no entries).

SHA-256 itself is implemented in full (FIPS 180-4) over byte lists, both as a
one-shot function and as a streaming init/update/final context, so that the
chunked-hashing claims are about a real digest computation; the implementation
is validated against the standard test vectors below.
-/

set_option maxRecDepth 100000

/-! ## SHA-256 primitives -/

/-- Fuelled worker for `chunksOf`; the fuel only forces structural recursion
(so the kernel can evaluate it) and is irrelevant once it is at least the
length of the list. -/
def chunksOfAux (n : Nat) : Nat → List α → List (List α)
  | 0, _ => []
  | _, [] => []
  | fuel + 1, x :: xs => ((x :: xs).take n) :: chunksOfAux n fuel ((x :: xs).drop (n.max 1))

/-- Split a list into consecutive chunks of `n` elements (the last chunk may
be shorter).  For `n = 0` the chunk size is treated as 1 so the function still
terminates; all uses have `n ≥ 1`. -/
def chunksOf (n : Nat) (l : List α) : List (List α) := chunksOfAux n l.length l

/-- Rotate a 32-bit word right by n bit positions. -/
def rotr32 (n x : Nat) : Nat := ((x >>> n) ||| (x <<< (32 - n))) % 2 ^ 32

/-- SHA-256 choice function. -/
def ch32 (x y z : Nat) : Nat := (x &&& y) ^^^ ((x ^^^ (2 ^ 32 - 1)) &&& z)

/-- SHA-256 majority function. -/
def maj32 (x y z : Nat) : Nat := (x &&& y) ^^^ (x &&& z) ^^^ (y &&& z)

/-- SHA-256 big sigma-0. -/
def bigS0 (x : Nat) : Nat := rotr32 2 x ^^^ rotr32 13 x ^^^ rotr32 22 x

/-- SHA-256 big sigma-1. -/
def bigS1 (x : Nat) : Nat := rotr32 6 x ^^^ rotr32 11 x ^^^ rotr32 25 x

/-- SHA-256 small sigma-0. -/
def smlS0 (x : Nat) : Nat := rotr32 7 x ^^^ rotr32 18 x ^^^ (x >>> 3)

/-- SHA-256 small sigma-1. -/
def smlS1 (x : Nat) : Nat := rotr32 17 x ^^^ rotr32 19 x ^^^ (x >>> 10)

/-- The 64 SHA-256 round constants (FIPS 180-4, written in decimal). -/
def sha256K : List Nat :=
  [1116352408, 1899447441, 3049323471, 3921009573, 961987163,
   1508970993, 2453635748, 2870763221, 3624381080, 310598401,
   607225278, 1426881987, 1925078388, 2162078206, 2614888103,
   3248222580, 3835390401, 4022224774, 264347078, 604807628,
   770255983, 1249150122, 1555081692, 1996064986, 2554220882,
   2821834349, 2952996808, 3210313671, 3336571891, 3584528711,
   113926993, 338241895, 666307205, 773529912, 1294757372,
   1396182291, 1695183700, 1986661051, 2177026350, 2456956037,
   2730485921, 2820302411, 3259730800, 3345764771, 3516065817,
   3600352804, 4094571909, 275423344, 430227734, 506948616,
   659060556, 883997877, 958139571, 1322822218, 1537002063,
   1747873779, 1955562222, 2024104815, 2227730452, 2361852424,
   2428436474, 2756734187, 3204031479, 3329325298]

/-- The eight initial SHA-256 hash words (written in decimal). -/
def sha256H0 : List Nat :=
  [0x6a09e667, 0xbb67ae85, 0x3c6ef372, 0xa54ff53a, 0x510e527f, 0x9b05688c, 0x1f83d9ab, 0x5be0cd19]

/-- Big-endian interpretation of a byte list as one word. -/
def bytesToWord (bs : List Nat) : Nat := bs.foldl (fun acc b => acc * 256 + b) 0

/-- The four big-endian bytes of a 32-bit word. -/
def wordBytes (x : Nat) : List Nat :=
  [(x >>> 24) % 256, (x >>> 16) % 256, (x >>> 8) % 256, x % 256]

/-- One step of the message-schedule extension: append word `w[t]` computed
from `w[t-2]`, `w[t-7]`, `w[t-15]`, `w[t-16]`. -/
def scheduleStep (ws : List Nat) : List Nat :=
  ws ++ [(smlS1 (ws.getD (ws.length - 2) 0) + ws.getD (ws.length - 7) 0 +
          smlS0 (ws.getD (ws.length - 15) 0) + ws.getD (ws.length - 16) 0) % 2 ^ 32]

/-- The 64-word message schedule of one 64-byte block. -/
def schedule (block : List Nat) : List Nat :=
  (List.range 48).foldl (fun ws _ => scheduleStep ws) ((chunksOf 4 block).map bytesToWord)

/-- One SHA-256 round on the eight-word working state. -/
def roundStep (st : List Nat) (kw : Nat × Nat) : List Nat :=
  match st with
  | [a, b, c, d, e, f, g, h] =>
    let t1 := (h + bigS1 e + ch32 e f g + kw.1 + kw.2) % 2 ^ 32
    let t2 := (bigS0 a + maj32 a b c) % 2 ^ 32
    [(t1 + t2) % 2 ^ 32, a, b, c, (d + t1) % 2 ^ 32, e, f, g]
  | other => other

/-- The SHA-256 compression function: fold the 64 rounds of one block into the
hash state and add the result back in. -/
def compress (hs : List Nat) (block : List Nat) : List Nat :=
  let st := (sha256K.zip (schedule block)).foldl roundStep hs
  (hs.zip st).map (fun p => (p.1 + p.2) % 2 ^ 32)

/-- Fuelled worker for `processBlocks`; the fuel only forces structural
recursion and is irrelevant once it is at least the length of the input. -/
def processBlocksAux (hs : List Nat) (l : List Nat) : Nat → List Nat × List Nat
  | 0 => (hs, l)
  | fuel + 1 =>
    if l.length < 64 then (hs, l)
    else processBlocksAux (compress hs (l.take 64)) (l.drop 64) fuel

/-- Consume every complete 64-byte block of `l` into the hash state, returning
the new state and the remaining (fewer than 64) bytes. -/
def processBlocks (hs : List Nat) (l : List Nat) : List Nat × List Nat :=
  processBlocksAux hs l l.length

/-- A streaming SHA-256 context, as in `hashlib`: current hash state, buffered
bytes not yet forming a complete block, and the total message length so far. -/
structure Sha256Ctx where
  hs : List Nat
  buf : List Nat
  msglen : Nat
deriving DecidableEq

/-- The fresh streaming context. -/
def Sha256Ctx.init : Sha256Ctx := ⟨sha256H0, [], 0⟩

/-- Feed more bytes into a streaming context (hashlib's `update`). -/
def Sha256Ctx.update (c : Sha256Ctx) (data : List Nat) : Sha256Ctx :=
  let p := processBlocks c.hs (c.buf ++ data)
  ⟨p.1, p.2, c.msglen + data.length⟩

/-- The eight big-endian length bytes appended by SHA-256 padding. -/
def lenBytes (len : Nat) : List Nat :=
  (List.range 8).map (fun i => ((8 * len) >>> (8 * (7 - i))) % 256)

/-- SHA-256 final padding of the buffered tail: a `0x80` byte, zeros up to 56
bytes mod 64, then the bit length of the whole message. -/
def padTail (buf : List Nat) (msglen : Nat) : List Nat :=
  buf ++ 128 :: (List.replicate ((120 - ((msglen + 1) % 64)) % 64) 0 ++ lenBytes msglen)

/-- Finish a streaming context and emit the 32 digest bytes (hashlib's
`digest`). -/
def Sha256Ctx.final (c : Sha256Ctx) : List Nat :=
  (((processBlocks c.hs (padTail c.buf c.msglen)).1).map wordBytes).flatten

/-- One-shot SHA-256 of a byte list. -/
def sha256 (msg : List Nat) : List Nat := (Sha256Ctx.init.update msg).final

/-- Lower-case hex character of a value below 16. -/
def hexDigit (n : Nat) : Char := if n < 10 then Char.ofNat (48 + n) else Char.ofNat (87 + n)

/-- Lower-case hex rendering of a byte list (hashlib's `hexdigest`). -/
def hexdigest (bs : List Nat) : String :=
  String.mk ((bs.map (fun b => [hexDigit (b / 16), hexDigit (b % 16)])).flatten)

/-- SHA-256 hex digest of a byte list, the value the program stores per file. -/
def sha256hex (msg : List Nat) : String := hexdigest (sha256 msg)

/-- SHA-256 computed by feeding the message to a streaming context in
consecutive chunks of `chunkSize` bytes, then finalising — the digest a reader
streaming the file in fixed-size chunks would produce. -/
def sha256_chunked (chunkSize : Nat) (msg : List Nat) : List Nat :=
  ((chunksOf chunkSize msg).foldl Sha256Ctx.update Sha256Ctx.init).final

/-- The bytes of an ASCII string. -/
def strBytes (s : String) : List Nat := s.data.map Char.toNat

/-! ## String comparison and sorting

Python's `sorted` on strings compares code points lexicographically.  The
library order on `String` does not evaluate inside the kernel, so the model
carries its own (equivalent) code-point comparison and uses Mathlib's
insertion sort with it. -/

/-- Lexicographic code-point comparison of character lists (Python string
`<=`). -/
def strLeb : List Char → List Char → Bool
  | [], _ => true
  | _ :: _, [] => false
  | x :: xs, y :: ys =>
    if x.toNat < y.toNat then true
    else if y.toNat < x.toNat then false
    else strLeb xs ys

/-- Python's string comparison, on `String`. -/
def strLe (a b : String) : Bool := strLeb a.data b.data

/-- The comparison as a relation, for use with Mathlib's sorting lemmas. -/
def strLeRel (a b : String) : Prop := strLe a b = true

instance : DecidableRel strLeRel :=
  fun a b => inferInstanceAs (Decidable (strLe a b = true))

theorem strLeb_total (a b : List Char) : strLeb a b = true ∨ strLeb b a = true := by
  induction a generalizing b with
  | nil => left; rfl
  | cons x xs ih =>
    cases b with
    | nil => right; rfl
    | cons y ys =>
      by_cases hxy : x.toNat < y.toNat
      · left; simp [strLeb, hxy]
      · by_cases hyx : y.toNat < x.toNat
        · right; simp [strLeb, hyx]
        · rcases ih ys with h | h
          · left; simp [strLeb, hxy, hyx, h]
          · right; simp [strLeb, hxy, hyx, h]

theorem char_eq_of_toNat_eq {x y : Char} (h : x.toNat = y.toNat) : x = y := by
  rw [← Char.ofNat_toNat x, ← Char.ofNat_toNat y, h]

theorem strLeb_antisymm (a : List Char) : ∀ b, strLeb a b = true → strLeb b a = true → a = b := by
  induction a with
  | nil =>
    intro b _ h2
    cases b with
    | nil => rfl
    | cons y ys => simp [strLeb] at h2
  | cons x xs ih =>
    intro b h1 h2
    cases b with
    | nil => simp [strLeb] at h1
    | cons y ys =>
      by_cases hxy : x.toNat < y.toNat
      · have hyx : ¬ y.toNat < x.toNat := by omega
        simp [strLeb, hxy, hyx] at h2
      · by_cases hyx : y.toNat < x.toNat
        · simp [strLeb, hxy, hyx] at h1
        · have h1' : strLeb xs ys = true := by simpa [strLeb, hxy, hyx] using h1
          have h2' : strLeb ys xs = true := by simpa [strLeb, hxy, hyx] using h2
          rw [char_eq_of_toNat_eq (show x.toNat = y.toNat by omega), ih ys h1' h2']

theorem strLeb_trans (a : List Char) :
    ∀ b c, strLeb a b = true → strLeb b c = true → strLeb a c = true := by
  induction a with
  | nil => intro b c _ _; rfl
  | cons x xs ih =>
    intro b c h1 h2
    cases b with
    | nil => simp [strLeb] at h1
    | cons y ys =>
      cases c with
      | nil => simp [strLeb] at h2
      | cons z zs =>
        by_cases hxy : x.toNat < y.toNat
        · by_cases hyz : y.toNat < z.toNat
          · simp [strLeb, show x.toNat < z.toNat by omega]
          · by_cases hzy : z.toNat < y.toNat
            · simp [strLeb, hyz, hzy] at h2
            · simp [strLeb, show x.toNat < z.toNat by omega]
        · by_cases hyx : y.toNat < x.toNat
          · simp [strLeb, hxy, hyx] at h1
          · have h1' : strLeb xs ys = true := by simpa [strLeb, hxy, hyx] using h1
            by_cases hyz : y.toNat < z.toNat
            · simp [strLeb, show x.toNat < z.toNat by omega]
            · by_cases hzy : z.toNat < y.toNat
              · simp [strLeb, hyz, hzy] at h2
              · have h2' : strLeb ys zs = true := by simpa [strLeb, hyz, hzy] using h2
                have hxz : ¬ x.toNat < z.toNat := by omega
                have hzx : ¬ z.toNat < x.toNat := by omega
                simp [strLeb, hxz, hzx, ih ys zs h1' h2']

instance : IsTotal String strLeRel :=
  ⟨fun a b => strLeb_total a.data b.data⟩

instance : IsTrans String strLeRel :=
  ⟨fun a b c h1 h2 => strLeb_trans a.data b.data c.data h1 h2⟩

instance : IsAntisymm String strLeRel := by
  refine ⟨fun a b h1 h2 => ?_⟩
  obtain ⟨la⟩ := a
  obtain ⟨lb⟩ := b
  exact congrArg String.mk (strLeb_antisymm la lb h1 h2)

/-- Python's `sorted` on a list of strings. -/
def sortStrList (l : List String) : List String := List.insertionSort strLeRel l

theorem sortStrList_congr (l1 l2 : List String) (h : l1.Perm l2) :
    sortStrList l1 = sortStrList l2 :=
  List.eq_of_perm_of_sorted
    ((List.perm_insertionSort strLeRel l1).trans (h.trans (List.perm_insertionSort strLeRel l2).symm))
    (List.sorted_insertionSort strLeRel l1) (List.sorted_insertionSort strLeRel l2)

/-- Python's `sorted` applied to a set of strings: the unique sorted
enumeration of a `Finset String`. -/
def sortFinset (s : Finset String) : List String :=
  Quotient.lift sortStrList sortStrList_congr s.val

/-- FIPS 180-4 test vector: the empty message. -/
example : sha256hex [] = "e3b0c44298fc1c149afbf4c8996fb92427ae41e4649b934ca495991b7852b855" := by
  decide

/-- FIPS 180-4 test vector: the message "abc". -/
example : sha256hex (strBytes "abc") =
    "ba7816bf8f01cfea414140de5dae2223b00361a396177a9cb410ff61f20015ad" := by
  decide

/-! ## The filesystem model

What each of the two source paths can name: a directory tree (a finite map
from forward-slash relative path to the file's readable content, `none`
standing for a file that is listed by the walk but whose `open` raises, e.g.
for permissions), a 7z archive (a list of entries: archived name, the
`is_directory` flag reported by `py7zr`, and the entry's bytes), or nothing
at all.  A whole filesystem is a total map from path strings to entities. -/

inductive Entity where
  | dir (files : List (String × Option (List Nat)))
  | archive (entries : List (String × Bool × List Nat))
  | absent
deriving DecidableEq

/-- A filesystem state: what is found at each path. -/
def World : Type := String → Entity

/-- Python's `s.lower()` (character-wise lowering; paths here are ASCII). -/
def pyLower (s : String) : String := String.mk (s.data.map Char.toLower)

/-- Python's `s.endswith(suffix)`. -/
def pyEndsWith (s suffix : String) : Bool := suffix.data.isSuffixOf s.data

/-- The program's archive test, `path.lower().endswith('.7z')` — used by
`list_all_files` (line 13), `run_compare` (lines 122/124) and `copy_files`
(line 161). -/
def isArchivePath (path : String) : Bool := pyEndsWith (pyLower path) ".7z"

/-! ## Collection Lister (`list_all_files`, lines 12-26) -/

/-- The relative-path key set of a directory tree. -/
def dirNames (files : List (String × Option (List Nat))) : Finset String :=
  (files.map Prod.fst).toFinset

/-- The member name set of an archive: filenames of the non-directory
entries, as in the comprehension over `archive.list()`. -/
def archiveNames (entries : List (String × Bool × List Nat)) : Finset String :=
  ((entries.filter (fun e => !e.2.1)).map Prod.fst).toFinset

/-- The archive branch of `list_all_files`: `py7zr.SevenZipFile(path)` fails
if nothing (or a directory) is at the path, otherwise the non-directory entry
names are returned. -/
def listArchiveAt (w : World) (path : String) : Except String (Finset String) :=
  match w path with
  | .archive entries => .ok (archiveNames entries)
  | .dir _ => .error "IsADirectoryError"
  | .absent => .error "FileNotFoundError"

/-- The directory branch of `list_all_files`: `os.walk` enumerates the tree's
relative paths; on a path that is not an existing directory it silently
yields nothing, so the listing is empty rather than an error. -/
def listDirAt (w : World) (path : String) : Except String (Finset String) :=
  match w path with
  | .dir files => .ok (dirNames files)
  | _ => .ok ∅

/-- The function `list_all_files(path)`: branch on the `.7z` suffix, then list. -/
def list_all_files (w : World) (path : String) : Except String (Finset String) :=
  if isArchivePath path then listArchiveAt w path else listDirAt w path

/-! ## Hashing Engine (`calculate_hashes`, lines 29-67) -/

/-- Read the bytes of `base/rel` from disk (`open(full_path, 'rb')` followed
by `f.read()`). -/
def readDisk (w : World) (base rel : String) : Except String (List Nat) :=
  match w base with
  | .dir files =>
    match files.lookup rel with
    | some (some data) => .ok data
    | some none => .error "PermissionError"
    | none => .error "FileNotFoundError"
  | .archive _ => .error "NotADirectoryError"
  | .absent => .error "FileNotFoundError"

/-- The worker `hash_file_from_disk` (lines 33-36): read the file and return
`(rel_path, sha256(...).hexdigest())`; any read failure propagates. -/
def hash_file_from_disk (w : World) (base rel : String) : Except String (String × String) :=
  match readDisk w base rel with
  | .ok data => .ok (rel, sha256hex data)
  | .error e => .error e

/-- The worker `hash_file_from_archive` (lines 38-39): hash already-extracted bytes. -/
def hash_file_from_archive (rel : String) (filedata : List Nat) : String × String :=
  (rel, sha256hex filedata)

/-- Find a non-directory entry of an archive by name, as `archive.read`
resolves its targets. -/
def findEntry (entries : List (String × Bool × List Nat)) (rel : String) : Option (List Nat) :=
  match entries.find? (fun e => e.1 == rel && !e.2.1) with
  | some e => some e.2.2
  | none => none

/-- Resolve every requested member of an archive, in request order; the first
name the archive cannot supply raises (`batch_data[rel]` is a `KeyError`). -/
def collectEntries (entries : List (String × Bool × List Nat)) :
    List String → Except String (List (String × List Nat))
  | [] => .ok []
  | rel :: rest =>
    match findEntry entries rel with
    | some data =>
      match collectEntries entries rest with
      | .ok tl => .ok ((rel, data) :: tl)
      | .error e => .error e
    | none => .error "KeyError"

/-- The call `archive.read(file_list)` (line 43): open the archive at `base` and
extract all requested members up front. -/
def batchRead (w : World) (base : String) (fileList : List String) :
    Except String (List (String × List Nat)) :=
  match w base with
  | .archive entries => collectEntries entries fileList
  | .dir _ => .error "IsADirectoryError"
  | .absent => .error "FileNotFoundError"

/-- The result-collection loop over the submitted futures (lines 50-54 and
61-65): in submission order, wait for each member's `(rel, digest)` — a
worker's exception re-raises here and aborts the loop — record the digest,
then invoke the progress callback with `(i, total)`.  The accumulated list of
`(completed_count, total_count)` callback arguments is returned alongside the
digests. -/
def hashLoop (worker : String → Except String (String × String)) (total : Nat) :
    List String → Nat → List (String × String) → List (Nat × Nat) →
    Except String (List (String × String) × List (Nat × Nat))
  | [], _, hashes, trace => .ok (hashes, trace)
  | rel :: rest, i, hashes, trace =>
    match worker rel with
    | .error e => .error e
    | .ok rh => hashLoop worker total rest (i + 1) (hashes ++ [rh]) (trace ++ [(i, total)])

/-- The per-member worker of the archive branch: hash the bytes extracted by
the batch read (`batch_data[rel]`). -/
def archiveWorker (batch : List (String × List Nat)) (rel : String) :
    Except String (String × String) :=
  match batch.lookup rel with
  | some filedata => .ok (hash_file_from_archive rel filedata)
  | none => .error "KeyError"

/-- The `is_archive` branch of `calculate_hashes` (lines 41-54). -/
def hashArchiveBranch (w : World) (base : String) (fileList : List String) :
    Except String (List (String × String) × List (Nat × Nat)) :=
  match batchRead w base fileList with
  | .error e => .error e
  | .ok batch => hashLoop (archiveWorker batch) fileList.length fileList 1 [] []

/-- The on-disk branch of `calculate_hashes` (lines 55-65). -/
def hashDiskBranch (w : World) (base : String) (fileList : List String) :
    Except String (List (String × String) × List (Nat × Nat)) :=
  hashLoop (hash_file_from_disk w base) fileList.length fileList 1 [] []

/-- The function `calculate_hashes(base, file_list, is_archive, progress_callback)`:
returns the digest map (as an association list in completion order) together
with the trace of progress-callback arguments, or the first exception a
worker raised. -/
def calculate_hashes (w : World) (base : String) (fileList : List String) (isArch : Bool) :
    Except String (List (String × String) × List (Nat × Nat)) :=
  if isArch then hashArchiveBranch w base fileList else hashDiskBranch w base fileList

/-! ## Comparator (`CompareApp.run_compare`, lines 107-133) -/

/-- The hash-mode refinement loop (lines 126-129): for each common path whose
two digests differ, add the path to both `only1` and `only2`. -/
def addMismatches (h1 h2 : List (String × String)) :
    List String → Finset String × Finset String → Finset String × Finset String
  | [], acc => acc
  | f :: rest, acc =>
    if h1.lookup f ≠ h2.lookup f then
      addMismatches h1 h2 rest (insert f acc.1, insert f acc.2)
    else
      addMismatches h1 h2 rest acc

/-- The method `run_compare(s1, s2, compare_hash)`: list both sources, take the two set
differences, and in hash mode also hash the sorted common paths on both sides
and add every content mismatch to both sides.  Listing or hashing errors
propagate (they kill the comparison thread in the GUI). -/
def run_compare (w : World) (s1 s2 : String) (compareHash : Bool) :
    Except String (Finset String × Finset String) :=
  match list_all_files w s1 with
  | .error e => .error e
  | .ok files1 =>
    match list_all_files w s2 with
    | .error e => .error e
    | .ok files2 =>
      let only1 := files1 \ files2
      let only2 := files2 \ files1
      let common := sortFinset (files1 ∩ files2)
      if compareHash then
        match calculate_hashes w s1 common (isArchivePath s1) with
        | .error e => .error e
        | .ok (hashes1, _) =>
          match calculate_hashes w s2 common (isArchivePath s2) with
          | .error e => .error e
          | .ok (hashes2, _) => .ok (addMismatches hashes1 hashes2 common (only1, only2))
      else
        .ok (only1, only2)

/-! ## Reconciler (`CompareApp.copy_files`, lines 160-178) -/

/-- Replace or append one file in a directory tree (writing `dst/rel`
overwrites silently). -/
def upsert (files : List (String × Option (List Nat))) (rel : String) (data : List Nat) :
    List (String × Option (List Nat)) :=
  match files with
  | [] => [(rel, some data)]
  | (k, v) :: rest => if k = rel then (k, some data) :: rest else (k, v) :: upsert rest rel data

/-- Write bytes to `dst/rel`, creating intermediate directories
(`os.makedirs(..., exist_ok=True)` then an overwriting `open(out, 'wb')`).
Writing under a path occupied by an archive file fails. -/
def writeFile (w : World) (dst rel : String) (data : List Nat) : Except String World :=
  match w dst with
  | .dir files => .ok (fun p => if p = dst then .dir (upsert files rel data) else w p)
  | .absent => .ok (fun p => if p = dst then .dir [(rel, some data)] else w p)
  | .archive _ => .error "NotADirectoryError"

/-- The directory-source copy loop (lines 172-177): for each selected path,
`shutil.copy2(src/rel, dst/rel)`; the first exception aborts the loop,
leaving the copies already made in place. -/
def copyLoop (src dst : String) : World → List String → World × Option String
  | w, [] => (w, none)
  | w, rel :: rest =>
    match readDisk w src rel with
    | .error e => (w, some e)
    | .ok data =>
      match writeFile w dst rel data with
      | .error e => (w, some e)
      | .ok w2 => copyLoop src dst w2 rest

/-- The archive-source copy loop (lines 163-171): write each pre-extracted
member under `dst`; the first exception aborts the loop. -/
def writeLoop (dst : String) : World → List (String × List Nat) → World × Option String
  | w, [] => (w, none)
  | w, (rel, data) :: rest =>
    match writeFile w dst rel data with
    | .error e => (w, some e)
    | .ok w2 => writeLoop dst w2 rest

/-- The archive branch of `copy_files`: batch-extract the selection, then
write the members out. -/
def copyArchiveBranch (w : World) (src dst : String) (sel : List String) :
    World × Option String :=
  match batchRead w src sel with
  | .error e => (w, some e)
  | .ok batch => writeLoop dst w batch

/-- The method `copy_files(src, dst, lb)` for a selection `sel`: branch on the `.7z`
suffix of the source and copy each selected member to `dst` at the same
relative path.  The returned world is the filesystem after the run and the
`Option String` is the exception that aborted it, if any; `none` means all
copies succeeded (and the "Copied n files" box is shown). -/
def copy_files (w : World) (src dst : String) (sel : List String) : World × Option String :=
  if isArchivePath src then copyArchiveBranch w src dst sel else copyLoop src dst w sel

deriving instance DecidableEq for Except

/-! ## Streaming-hash lemmas

The chunked-streaming claims reduce to: feeding a context piecewise is the
same as feeding it the concatenation (`Sha256Ctx.update_append`), and the
chunks of a list concatenate back to the list. -/

theorem processBlocksAux_fuel (f1 : Nat) :
    ∀ (hs l : List Nat) (f2 : Nat), l.length ≤ f1 → l.length ≤ f2 →
      processBlocksAux hs l f1 = processBlocksAux hs l f2 := by
  induction f1 with
  | zero =>
    intro hs l f2 h1 _
    have hl : l.length < 64 := by omega
    cases f2 with
    | zero => rfl
    | succ f2 => simp [processBlocksAux, hl]
  | succ f1 ih =>
    intro hs l f2 h1 h2
    by_cases hl : l.length < 64
    · cases f2 with
      | zero => simp [processBlocksAux, hl]
      | succ f2 => simp [processBlocksAux, hl]
    · cases f2 with
      | zero => omega
      | succ f2 =>
        simp only [processBlocksAux, if_neg hl]
        exact ih _ _ f2 (by simp only [List.length_drop]; omega)
          (by simp only [List.length_drop]; omega)

theorem processBlocks_small (hs l : List Nat) (h : l.length < 64) :
    processBlocks hs l = (hs, l) := by
  unfold processBlocks
  cases hn : l.length with
  | zero => rfl
  | succ n => simp [processBlocksAux, h]

theorem processBlocks_step (hs l : List Nat) (h : ¬ l.length < 64) :
    processBlocks hs l = processBlocks (compress hs (l.take 64)) (l.drop 64) := by
  unfold processBlocks
  cases hn : l.length with
  | zero => omega
  | succ n =>
    simp only [processBlocksAux, if_neg h]
    exact processBlocksAux_fuel n _ _ _ (by simp only [List.length_drop]; omega)
      (by simp only [List.length_drop]; omega)

theorem processBlocks_rem_lt (hs l : List Nat) : (processBlocks hs l).2.length < 64 := by
  by_cases h : l.length < 64
  · rw [processBlocks_small hs l h]
    exact h
  · rw [processBlocks_step hs l h]
    exact processBlocks_rem_lt _ _
termination_by l.length
decreasing_by
  simp only [List.length_drop]
  omega

theorem processBlocks_append (hs x y : List Nat) :
    processBlocks hs (x ++ y) =
      processBlocks (processBlocks hs x).1 ((processBlocks hs x).2 ++ y) := by
  by_cases h : x.length < 64
  · rw [processBlocks_small hs x h]
  · have hxy : ¬ (x ++ y).length < 64 := by
      simp only [List.length_append]
      omega
    rw [processBlocks_step hs x h, processBlocks_step hs (x ++ y) hxy,
      List.take_append_of_le_length (by omega), List.drop_append_of_le_length (by omega)]
    exact processBlocks_append _ (x.drop 64) y
termination_by x.length
decreasing_by
  simp only [List.length_drop]
  omega

theorem Sha256Ctx.update_append (c : Sha256Ctx) (a b : List Nat) :
    (c.update a).update b = c.update (a ++ b) := by
  unfold Sha256Ctx.update
  rw [show c.buf ++ (a ++ b) = (c.buf ++ a) ++ b from (List.append_assoc _ _ _).symm,
    processBlocks_append c.hs (c.buf ++ a) b]
  simp [List.length_append, Nat.add_assoc]

theorem Sha256Ctx.update_buf_lt (c : Sha256Ctx) (d : List Nat) :
    (c.update d).buf.length < 64 :=
  processBlocks_rem_lt c.hs (c.buf ++ d)

theorem Sha256Ctx.update_nil (c : Sha256Ctx) (hbuf : c.buf.length < 64) : c.update [] = c := by
  unfold Sha256Ctx.update
  rw [List.append_nil, processBlocks_small c.hs c.buf hbuf]
  rfl

theorem foldl_update (cs : List (List Nat)) :
    ∀ c : Sha256Ctx, c.buf.length < 64 →
      cs.foldl Sha256Ctx.update c = c.update cs.flatten := by
  induction cs with
  | nil =>
    intro c hbuf
    exact (Sha256Ctx.update_nil c hbuf).symm
  | cons ch cs ih =>
    intro c hbuf
    rw [List.foldl_cons, ih (c.update ch) (Sha256Ctx.update_buf_lt c ch),
      Sha256Ctx.update_append, List.flatten_cons]

theorem chunksOfAux_flatten (n : Nat) (hn : 1 ≤ n) :
    ∀ (fuel : Nat) (l : List α), l.length ≤ fuel → (chunksOfAux n fuel l).flatten = l := by
  intro fuel
  induction fuel with
  | zero =>
    intro l h
    cases l with
    | nil => rfl
    | cons x xs => simp at h
  | succ fuel ih =>
    intro l h
    cases l with
    | nil => rfl
    | cons x xs =>
      simp only [List.length_cons] at h
      simp only [chunksOfAux, List.flatten_cons, Nat.max_eq_left hn]
      rw [ih _ (by simp only [List.length_drop, List.length_cons]; omega)]
      exact List.take_append_drop n (x :: xs)

theorem chunksOf_flatten (n : Nat) (hn : 1 ≤ n) (l : List α) : (chunksOf n l).flatten = l :=
  chunksOfAux_flatten n hn l.length l le_rfl

theorem sha256_chunked_eq_sha256 (chunkSize : Nat) (hn : 1 ≤ chunkSize) (msg : List Nat) :
    sha256_chunked chunkSize msg = sha256 msg := by
  unfold sha256_chunked sha256
  rw [foldl_update _ Sha256Ctx.init (by simp [Sha256Ctx.init]), chunksOf_flatten chunkSize hn msg]

/-! ## Hashing-loop lemmas -/

theorem hashLoop_ok_trace (worker : String → Except String (String × String)) (total : Nat) :
    ∀ (fl : List String) (i : Nat) (hashes : List (String × String)) (trace : List (Nat × Nat))
      (h : List (String × String)) (t : List (Nat × Nat)),
      hashLoop worker total fl i hashes trace = .ok (h, t) →
      t = trace ++ (List.range' i fl.length).map (fun j => (j, total)) := by
  intro fl
  induction fl with
  | nil =>
    intro i hashes trace h t hok
    simp only [hashLoop, Except.ok.injEq, Prod.mk.injEq] at hok
    simp [← hok.2]
  | cons rel rest ih =>
    intro i hashes trace h t hok
    simp only [hashLoop] at hok
    cases hw : worker rel with
    | error e => rw [hw] at hok; exact absurd hok (by simp)
    | ok rh =>
      rw [hw] at hok
      rw [ih _ _ _ _ _ hok]
      simp [List.range'_succ]

theorem hashLoop_ok_mem (worker : String → Except String (String × String)) (total : Nat) :
    ∀ (fl : List String) (i : Nat) (hashes : List (String × String)) (trace : List (Nat × Nat))
      (h : List (String × String)) (t : List (Nat × Nat)),
      hashLoop worker total fl i hashes trace = .ok (h, t) →
      ∀ rh ∈ h, rh ∈ hashes ∨ ∃ rel ∈ fl, worker rel = .ok rh := by
  intro fl
  induction fl with
  | nil =>
    intro i hashes trace h t hok rh hmem
    simp only [hashLoop, Except.ok.injEq, Prod.mk.injEq] at hok
    left
    rw [← hok.1] at hmem
    exact hmem
  | cons rel rest ih =>
    intro i hashes trace h t hok rh hmem
    simp only [hashLoop] at hok
    cases hw : worker rel with
    | error e => rw [hw] at hok; exact absurd hok (by simp)
    | ok rh0 =>
      rw [hw] at hok
      rcases ih _ _ _ _ _ hok rh hmem with hin | ⟨r, hr, hwr⟩
      · rcases List.mem_append.mp hin with hin | hin
        · exact Or.inl hin
        · right
          refine ⟨rel, List.mem_cons_self rel rest, ?_⟩
          rw [hw, List.mem_singleton.mp hin]
      · exact Or.inr ⟨r, List.mem_cons_of_mem rel hr, hwr⟩

theorem hashLoop_error (worker : String → Except String (String × String)) (total : Nat)
    (rel e : String) (hrel : worker rel = .error e) :
    ∀ (pre post : List String) (i : Nat) (hashes : List (String × String))
      (trace : List (Nat × Nat)),
      (∀ x ∈ pre, ∃ v, worker x = .ok v) →
      hashLoop worker total (pre ++ rel :: post) i hashes trace = .error e := by
  intro pre
  induction pre with
  | nil =>
    intro post i hashes trace _
    simp [hashLoop, hrel]
  | cons x xs ih =>
    intro post i hashes trace hpre
    obtain ⟨v, hv⟩ := hpre x (List.mem_cons_self x xs)
    simp only [List.cons_append, hashLoop, hv]
    exact ih post _ _ _ (fun y hy => hpre y (List.mem_cons_of_mem x hy))

/-! ## Comparator lemmas -/

theorem mem_sortFinset (s : Finset String) (x : String) : x ∈ sortFinset s ↔ x ∈ s := by
  unfold sortFinset
  rcases s with ⟨m, hm⟩
  induction m using Quotient.inductionOn with
  | h l =>
    show x ∈ sortStrList l ↔ _
    unfold sortStrList
    rw [(List.perm_insertionSort strLeRel l).mem_iff]
    simp [Finset.mem_mk]

theorem addMismatches_subset (h1 h2 : List (String × String)) :
    ∀ (l : List String) (acc : Finset String × Finset String),
      acc.1 ⊆ (addMismatches h1 h2 l acc).1 ∧ acc.2 ⊆ (addMismatches h1 h2 l acc).2 := by
  intro l
  induction l with
  | nil => intro acc; exact ⟨Finset.Subset.refl _, Finset.Subset.refl _⟩
  | cons f rest ih =>
    intro acc
    by_cases hc : h1.lookup f ≠ h2.lookup f
    · simp only [addMismatches, if_pos hc]
      obtain ⟨ha, hb⟩ := ih (insert f acc.1, insert f acc.2)
      exact ⟨(Finset.subset_insert f acc.1).trans ha, (Finset.subset_insert f acc.2).trans hb⟩
    · simp only [addMismatches, if_neg hc]
      exact ih acc

theorem addMismatches_mem (h1 h2 : List (String × String)) :
    ∀ (l : List String) (acc : Finset String × Finset String) (f : String),
      f ∈ l → h1.lookup f ≠ h2.lookup f →
      f ∈ (addMismatches h1 h2 l acc).1 ∧ f ∈ (addMismatches h1 h2 l acc).2 := by
  intro l
  induction l with
  | nil => intro acc f hf; exact absurd hf (List.not_mem_nil f)
  | cons g rest ih =>
    intro acc f hf hne
    rcases List.mem_cons.mp hf with rfl | hf
    · simp only [addMismatches, if_pos hne]
      obtain ⟨ha, hb⟩ := addMismatches_subset h1 h2 rest (insert f acc.1, insert f acc.2)
      exact ⟨ha (Finset.mem_insert_self f acc.1), hb (Finset.mem_insert_self f acc.2)⟩
    · by_cases hc : h1.lookup g ≠ h2.lookup g
      · simp only [addMismatches, if_pos hc]
        exact ih _ f hf hne
      · simp only [addMismatches, if_neg hc]
        exact ih _ f hf hne

/-! ## Reconciler lemmas -/

/-- The relative-path key set a non-archive-suffixed listing of an entity
produces: the keys of a directory tree, nothing otherwise (`os.walk` on a
plain file or a missing path yields no entries). -/
def entityKeys : Entity → Finset String
  | .dir files => dirNames files
  | _ => ∅

theorem list_all_files_dirCase (w : World) (p : String) (h : isArchivePath p = false) :
    list_all_files w p = .ok (entityKeys (w p)) := by
  unfold list_all_files listDirAt entityKeys
  rw [h]
  cases w p <;> simp [dirNames]

theorem list_all_files_congr (w w' : World) (p : String) (h : w' p = w p) :
    list_all_files w' p = list_all_files w p := by
  unfold list_all_files listArchiveAt listDirAt
  rw [h]

theorem upsert_keys (files : List (String × Option (List Nat))) (rel : String) (data : List Nat) :
    dirNames (upsert files rel data) = insert rel (dirNames files) := by
  induction files with
  | nil => simp [upsert, dirNames]
  | cons kv rest ih =>
    obtain ⟨k, v⟩ := kv
    by_cases hk : k = rel
    · subst hk
      simp [upsert, dirNames] at ih ⊢
    · simp only [upsert, if_neg hk]
      simp only [dirNames, List.map_cons, List.toFinset_cons] at ih ⊢
      rw [ih, Finset.Insert.comm]

theorem writeFile_ok (w : World) (dst rel : String) (data : List Nat) (w' : World)
    (h : writeFile w dst rel data = .ok w') :
    entityKeys (w' dst) = insert rel (entityKeys (w dst)) ∧
    (∀ p, p ≠ dst → w' p = w p) ∧ (∃ fs, w' dst = .dir fs) := by
  unfold writeFile at h
  cases hw : w dst with
  | dir files =>
    rw [hw] at h
    simp only [Except.ok.injEq] at h
    subst h
    refine ⟨?_, ?_, ⟨upsert files rel data, by simp⟩⟩
    · simp [entityKeys, hw, upsert_keys]
    · intro p hp
      simp [hp]
  | archive entries =>
    rw [hw] at h
    exact absurd h (by simp)
  | absent =>
    rw [hw] at h
    simp only [Except.ok.injEq] at h
    subst h
    refine ⟨?_, ?_, ⟨[(rel, some data)], by simp⟩⟩
    · simp [entityKeys, hw, dirNames]
    · intro p hp
      simp [hp]

theorem copyLoop_ok (src dst : String) :
    ∀ (sel : List String) (w w' : World), copyLoop src dst w sel = (w', none) →
      entityKeys (w' dst) = entityKeys (w dst) ∪ sel.toFinset ∧
      (∀ p, p ≠ dst → w' p = w p) ∧
      (sel = [] → w' = w) ∧ (sel ≠ [] → ∃ fs, w' dst = .dir fs) := by
  intro sel
  induction sel with
  | nil =>
    intro w w' h
    simp only [copyLoop, Prod.mk.injEq] at h
    rw [← h.1]
    exact ⟨by simp, fun p _ => rfl, fun _ => rfl, fun hne => absurd rfl hne⟩
  | cons rel rest ih =>
    intro w w' h
    cases hr : readDisk w src rel with
    | error e => simp only [copyLoop, hr] at h; simp at h
    | ok data =>
      cases hwf : writeFile w dst rel data with
      | error e => simp only [copyLoop, hr, hwf] at h; simp at h
      | ok w2 =>
        simp only [copyLoop, hr, hwf] at h
        obtain ⟨hk2, hloc2, hdir2⟩ := writeFile_ok w dst rel data w2 hwf
        obtain ⟨hk, hloc, hnil, hdir⟩ := ih w2 w' h
        refine ⟨?_, ?_, ?_, ?_⟩
        · rw [hk, hk2, List.toFinset_cons]
          rw [Finset.insert_union, Finset.union_insert]
        · intro p hp
          rw [hloc p hp, hloc2 p hp]
        · intro hc
          exact absurd hc (by simp)
        · intro _
          by_cases hrest : rest = []
          · rw [hnil hrest]
            exact hdir2
          · exact hdir hrest

theorem writeLoop_ok (dst : String) :
    ∀ (batch : List (String × List Nat)) (w w' : World), writeLoop dst w batch = (w', none) →
      entityKeys (w' dst) = entityKeys (w dst) ∪ (batch.map Prod.fst).toFinset ∧
      (∀ p, p ≠ dst → w' p = w p) ∧
      (batch = [] → w' = w) ∧ (batch ≠ [] → ∃ fs, w' dst = .dir fs) := by
  intro batch
  induction batch with
  | nil =>
    intro w w' h
    simp only [writeLoop, Prod.mk.injEq] at h
    rw [← h.1]
    exact ⟨by simp, fun p _ => rfl, fun _ => rfl, fun hne => absurd rfl hne⟩
  | cons rd rest ih =>
    intro w w' h
    obtain ⟨rel, data⟩ := rd
    cases hwf : writeFile w dst rel data with
    | error e => simp only [writeLoop, hwf] at h; simp at h
    | ok w2 =>
      simp only [writeLoop, hwf] at h
      obtain ⟨hk2, hloc2, hdir2⟩ := writeFile_ok w dst rel data w2 hwf
      obtain ⟨hk, hloc, hnil, hdir⟩ := ih w2 w' h
      refine ⟨?_, ?_, ?_, ?_⟩
      · rw [hk, hk2, List.map_cons, List.toFinset_cons]
        rw [Finset.insert_union, Finset.union_insert]
      · intro p hp
        rw [hloc p hp, hloc2 p hp]
      · intro hc
        exact absurd hc (by simp)
      · intro _
        by_cases hrest : rest = []
        · rw [hnil hrest]
          exact hdir2
        · exact hdir hrest

theorem collectEntries_map_fst (entries : List (String × Bool × List Nat)) :
    ∀ (sel : List String) (batch : List (String × List Nat)),
      collectEntries entries sel = .ok batch → batch.map Prod.fst = sel := by
  intro sel
  induction sel with
  | nil =>
    intro batch h
    simp only [collectEntries, Except.ok.injEq] at h
    rw [← h]
    rfl
  | cons rel rest ih =>
    intro batch h
    simp only [collectEntries] at h
    cases hf : findEntry entries rel with
    | none => rw [hf] at h; exact absurd h (by simp)
    | some data =>
      rw [hf] at h
      cases hc : collectEntries entries rest with
      | error e => rw [hc] at h; exact absurd h (by simp)
      | ok tl =>
        rw [hc] at h
        simp only [Except.ok.injEq] at h
        rw [← h, List.map_cons, ih tl hc]

theorem collectEntries_lookup (entries : List (String × Bool × List Nat)) :
    ∀ (sel : List String) (batch : List (String × List Nat)),
      collectEntries entries sel = .ok batch →
      ∀ (r : String) (fd : List Nat), batch.lookup r = some fd → findEntry entries r = some fd := by
  intro sel
  induction sel with
  | nil =>
    intro batch h r fd hl
    simp only [collectEntries, Except.ok.injEq] at h
    rw [← h] at hl
    exact absurd hl (by simp [List.lookup])
  | cons rel rest ih =>
    intro batch h r fd hl
    simp only [collectEntries] at h
    cases hf : findEntry entries rel with
    | none => rw [hf] at h; exact absurd h (by simp)
    | some data =>
      rw [hf] at h
      cases hc : collectEntries entries rest with
      | error e => rw [hc] at h; exact absurd h (by simp)
      | ok tl =>
        rw [hc] at h
        simp only [Except.ok.injEq] at h
        rw [← h] at hl
        by_cases hr : r = rel
        · subst hr
          simp only [List.lookup, beq_self_eq_true, Option.some.injEq] at hl
          rw [hf, hl]
        · have hbeq : (r == rel) = false := beq_false_of_ne hr
          simp only [List.lookup, hbeq] at hl
          exact ih tl hc r fd hl

theorem copy_files_ok (w : World) (src dst : String) (sel : List String) (w' : World)
    (h : copy_files w src dst sel = (w', none)) :
    entityKeys (w' dst) = entityKeys (w dst) ∪ sel.toFinset ∧
    (∀ p, p ≠ dst → w' p = w p) ∧
    (sel = [] → w' = w) ∧ (sel ≠ [] → ∃ fs, w' dst = .dir fs) := by
  unfold copy_files at h
  by_cases ha : isArchivePath src
  · rw [if_pos ha] at h
    cases hb : batchRead w src sel with
    | error e => simp only [copyArchiveBranch, hb] at h; simp at h
    | ok batch =>
      simp only [copyArchiveBranch, hb] at h
      unfold batchRead at hb
      cases hw : w src with
      | dir files => rw [hw] at hb; exact absurd hb (by simp)
      | absent => rw [hw] at hb; exact absurd hb (by simp)
      | archive entries =>
        rw [hw] at hb
        have hmap : batch.map Prod.fst = sel := collectEntries_map_fst entries sel batch hb
        obtain ⟨hk, hloc, hnil, hdir⟩ := writeLoop_ok dst batch w w' h
        refine ⟨by rw [hk, hmap], hloc, ?_, ?_⟩
        · intro hc
          have : batch = [] := by
            cases batch with
            | nil => rfl
            | cons b bs => rw [hc] at hmap; exact absurd hmap (by simp)
          exact hnil this
        · intro hc
          have : batch ≠ [] := by
            intro hb0
            rw [hb0] at hmap
            exact hc hmap.symm
          exact hdir this
  · rw [if_neg ha] at h
    exact copyLoop_ok src dst sel w w' h

/-! ## Concrete fixtures

Small filesystems used to instantiate the claims on explicit inputs. -/

/-- The bytes of "hello". -/
def helloBytes : List Nat := [104, 101, 108, 108, 111]

/-- The bytes of "world". -/
def worldBytes : List Nat := [119, 111, 114, 108, 100]

/-- The bytes of "WORLD". -/
def shoutBytes : List Nat := [87, 79, 82, 76, 68]

/-- The spec's scenario: Source A holds `x/a.txt = "hello"`, `b.txt = "world"`;
Source B holds the same paths but `b.txt = "WORLD"`. -/
def scenarioWorld : World := fun p =>
  if p = "A" then .dir [("x/a.txt", some helloBytes), ("b.txt", some worldBytes)]
  else if p = "B" then .dir [("x/a.txt", some helloBytes), ("b.txt", some shoutBytes)]
  else .absent

/-- Two directories with one private file each and one shared name with
different contents. -/
def c2World : World := fun p =>
  if p = "P" then .dir [("a", some [0]), ("b", some [1])]
  else if p = "Q" then .dir [("b", some [2]), ("c", some [3])]
  else .absent

/-- A source with one unreadable file (`a.txt`, its `open` raises) and one
readable file, plus an empty destination directory. -/
def failWorld : World := fun p =>
  if p = "S" then .dir [("a.txt", none), ("ok.txt", some [1, 2, 3])]
  else if p = "D" then .dir []
  else .absent

/-- A filesystem with nothing anywhere. -/
def missingWorld : World := fun _ => .absent

/-- A pair of directories where `P` has one file (`c`) that `Q` is missing. -/
def c4World : World := fun p =>
  if p = "P" then .dir [("a", some [0]), ("c", some [7])]
  else if p = "Q" then .dir [("a", some [0])]
  else .absent

/-- The world `c4World` after `c` has been copied from `P` into `Q`. -/
def c4WorldAfter : World := fun p =>
  if p = "Q" then .dir [("a", some [0]), ("c", some [7])] else c4World p

/-- The byte source the Hashing Engine reads a member from, per branch: the
archive entry for an archive source, the on-disk file otherwise. -/
def readMember (w : World) (base : String) (isArch : Bool) (rel : String) :
    Except String (List Nat) :=
  if isArch then
    match w base with
    | .archive entries =>
      match findEntry entries rel with
      | some data => .ok data
      | none => .error "KeyError"
    | .dir _ => .error "IsADirectoryError"
    | .absent => .error "FileNotFoundError"
  else readDisk w base rel

/-! ## The claims -/

/-- C1: in hash-mode comparison, every relative path present in both listings
whose two digests differ is added to both `onlyInA` and `onlyInB`; and on the
spec's scenario (`scenarioWorld`), name-compare returns two empty sets while
hash-compare returns `{"b.txt"}` on both sides. -/
theorem C1_hash_mismatch_both_sides :
    (∀ (w : World) (s1 s2 : String) (f1 f2 : Finset String)
        (hs1 hs2 : List (String × String)) (tr1 tr2 : List (Nat × Nat)) (f : String),
      list_all_files w s1 = .ok f1 →
      list_all_files w s2 = .ok f2 →
      calculate_hashes w s1 (sortFinset (f1 ∩ f2)) (isArchivePath s1) = .ok (hs1, tr1) →
      calculate_hashes w s2 (sortFinset (f1 ∩ f2)) (isArchivePath s2) = .ok (hs2, tr2) →
      f ∈ f1 → f ∈ f2 → hs1.lookup f ≠ hs2.lookup f →
      ∃ o1 o2, run_compare w s1 s2 true = .ok (o1, o2) ∧ f ∈ o1 ∧ f ∈ o2) ∧
    run_compare scenarioWorld "A" "B" false = .ok (∅, ∅) ∧
    run_compare scenarioWorld "A" "B" true = .ok ({"b.txt"}, {"b.txt"}) := by
  refine ⟨?_, by decide, by decide⟩
  intro w s1 s2 f1 f2 hs1 hs2 tr1 tr2 f h1 h2 hc1 hc2 hf1 hf2 hne
  have hmem := addMismatches_mem hs1 hs2 (sortFinset (f1 ∩ f2)) (f1 \ f2, f2 \ f1) f
    ((mem_sortFinset _ f).mpr (Finset.mem_inter.mpr ⟨hf1, hf2⟩)) hne
  refine ⟨(addMismatches hs1 hs2 (sortFinset (f1 ∩ f2)) (f1 \ f2, f2 \ f1)).1,
    (addMismatches hs1 hs2 (sortFinset (f1 ∩ f2)) (f1 \ f2, f2 \ f1)).2, ?_, hmem.1, hmem.2⟩
  simp [run_compare, h1, h2, hc1, hc2]

/-- C1 witness: the general statement instantiated on the scenario at the
mismatching path "b.txt". -/
theorem C1_witness :
    list_all_files scenarioWorld "A" = .ok {"x/a.txt", "b.txt"} ∧
    list_all_files scenarioWorld "B" = .ok {"x/a.txt", "b.txt"} ∧
    calculate_hashes scenarioWorld "A"
        (sortFinset (({"x/a.txt", "b.txt"} : Finset String) ∩ {"x/a.txt", "b.txt"}))
        (isArchivePath "A") =
      .ok ([("b.txt", sha256hex worldBytes), ("x/a.txt", sha256hex helloBytes)],
           [(1, 2), (2, 2)]) ∧
    calculate_hashes scenarioWorld "B"
        (sortFinset (({"x/a.txt", "b.txt"} : Finset String) ∩ {"x/a.txt", "b.txt"}))
        (isArchivePath "B") =
      .ok ([("b.txt", sha256hex shoutBytes), ("x/a.txt", sha256hex helloBytes)],
           [(1, 2), (2, 2)]) ∧
    List.lookup "b.txt" [("b.txt", sha256hex worldBytes), ("x/a.txt", sha256hex helloBytes)] ≠
      List.lookup "b.txt" [("b.txt", sha256hex shoutBytes), ("x/a.txt", sha256hex helloBytes)] ∧
    ∃ o1 o2, run_compare scenarioWorld "A" "B" true = .ok (o1, o2) ∧
      "b.txt" ∈ o1 ∧ "b.txt" ∈ o2 :=
  ⟨by decide, by decide, by decide, by decide, by decide,
   C1_hash_mismatch_both_sides.1 scenarioWorld "A" "B" {"x/a.txt", "b.txt"} {"x/a.txt", "b.txt"}
     [("b.txt", sha256hex worldBytes), ("x/a.txt", sha256hex helloBytes)]
     [("b.txt", sha256hex shoutBytes), ("x/a.txt", sha256hex helloBytes)]
     [(1, 2), (2, 2)] [(1, 2), (2, 2)] "b.txt"
     (by decide) (by decide) (by decide) (by decide) (by decide) (by decide) (by decide)⟩

/-- C2: name-mode comparison returns exactly the two set differences of the
listings' key sets, and each output side is disjoint from the other source's
key set. -/
theorem C2_name_compare_set_difference (w : World) (s1 s2 : String) (f1 f2 : Finset String)
    (h1 : list_all_files w s1 = .ok f1) (h2 : list_all_files w s2 = .ok f2) :
    run_compare w s1 s2 false = .ok (f1 \ f2, f2 \ f1) ∧
    Disjoint (f1 \ f2) f2 ∧ Disjoint (f2 \ f1) f1 :=
  ⟨by simp [run_compare, h1, h2], Finset.sdiff_disjoint, Finset.sdiff_disjoint⟩

/-- C2 witness: the set-difference contract on two concrete directories. -/
theorem C2_witness :
    list_all_files c2World "P" = .ok {"a", "b"} ∧
    list_all_files c2World "Q" = .ok {"b", "c"} ∧
    (run_compare c2World "P" "Q" false =
        .ok (({"a", "b"} : Finset String) \ {"b", "c"}, ({"b", "c"} : Finset String) \ {"a", "b"}) ∧
      Disjoint (({"a", "b"} : Finset String) \ {"b", "c"}) {"b", "c"} ∧
      Disjoint (({"b", "c"} : Finset String) \ {"a", "b"}) {"a", "b"}) :=
  ⟨by decide, by decide,
   C2_name_compare_set_difference c2World "P" "Q" {"a", "b"} {"b", "c"} (by decide) (by decide)⟩

/-- C3: on the same two sources, hash-mode `onlyInA` is a superset of
name-mode `onlyInA`, and likewise for `onlyInB`: the mismatch loop only adds
entries to the name-mode differences. -/
theorem C3_hash_superset (w : World) (s1 s2 : String) (o1 o2 o1' o2' : Finset String)
    (hn : run_compare w s1 s2 false = .ok (o1, o2))
    (hh : run_compare w s1 s2 true = .ok (o1', o2')) :
    o1 ⊆ o1' ∧ o2 ⊆ o2' := by
  cases hf1 : list_all_files w s1 with
  | error e => simp [run_compare, hf1] at hn
  | ok f1 =>
    cases hf2 : list_all_files w s2 with
    | error e => simp [run_compare, hf1, hf2] at hn
    | ok f2 =>
      have hn' : run_compare w s1 s2 false = .ok (f1 \ f2, f2 \ f1) := by
        simp [run_compare, hf1, hf2]
      cases hc1 : calculate_hashes w s1 (sortFinset (f1 ∩ f2)) (isArchivePath s1) with
      | error e => simp [run_compare, hf1, hf2, hc1] at hh
      | ok p1 =>
        obtain ⟨hs1, tr1⟩ := p1
        cases hc2 : calculate_hashes w s2 (sortFinset (f1 ∩ f2)) (isArchivePath s2) with
        | error e => simp [run_compare, hf1, hf2, hc1, hc2] at hh
        | ok p2 =>
          obtain ⟨hs2, tr2⟩ := p2
          have hh' : run_compare w s1 s2 true =
              .ok (addMismatches hs1 hs2 (sortFinset (f1 ∩ f2)) (f1 \ f2, f2 \ f1)) := by
            simp [run_compare, hf1, hf2, hc1, hc2]
          obtain ⟨e1, e2⟩ := Prod.ext_iff.mp (Except.ok.inj (hn.symm.trans hn'))
          obtain ⟨e1', e2'⟩ := Prod.ext_iff.mp (Except.ok.inj (hh.symm.trans hh'))
          dsimp only at e1 e2 e1' e2'
          rw [e1, e2, e1', e2']
          exact addMismatches_subset hs1 hs2 (sortFinset (f1 ∩ f2)) (f1 \ f2, f2 \ f1)

/-- C3 witness: on `c2World`, name-compare gives `({"a"}, {"c"})` and
hash-compare additionally flags the shared name `b`, a strict superset on
both sides. -/
theorem C3_witness :
    run_compare c2World "P" "Q" false = .ok ({"a"}, {"c"}) ∧
    run_compare c2World "P" "Q" true = .ok ({"b", "a"}, {"b", "c"}) ∧
    (({"a"} : Finset String) ⊆ {"b", "a"} ∧ ({"c"} : Finset String) ⊆ {"b", "c"}) :=
  ⟨by decide, by decide,
   C3_hash_superset c2World "P" "Q" {"a"} {"c"} {"b", "a"} {"b", "c"} (by decide) (by decide)⟩

/-- C4: round-trip reconciliation.  If every path of name-mode `onlyInA` is
copied from source 1 into the (non-archive) destination root and every copy
succeeds, re-running the name-mode comparison on the updated filesystem
yields an empty `onlyInA`. -/
theorem C4_round_trip (w : World) (s1 s2 : String) (f1 f2 : Finset String) (sel : List String)
    (w' : World)
    (ha2 : isArchivePath s2 = false)
    (h1 : list_all_files w s1 = .ok f1)
    (h2 : list_all_files w s2 = .ok f2)
    (hsel : sel.toFinset = f1 \ f2)
    (hcopy : copy_files w s1 s2 sel = (w', none)) :
    ∃ o2, run_compare w' s1 s2 false = .ok (∅, o2) := by
  obtain ⟨hkeys, hloc, hnil, hdir⟩ := copy_files_ok w s1 s2 sel w' hcopy
  by_cases hselE : sel = []
  · have hw' : w' = w := hnil hselE
    rw [hw']
    have hdiff : f1 \ f2 = ∅ := by
      rw [← hsel, hselE]
      simp
    refine ⟨f2 \ f1, ?_⟩
    have hrc : run_compare w s1 s2 false = .ok (f1 \ f2, f2 \ f1) := by
      simp [run_compare, h1, h2]
    rw [hrc, hdiff]
  · obtain ⟨fs, hfs⟩ := hdir hselE
    by_cases hs : s1 = s2
    · subst hs
      have hf : f1 = f2 := by
        have := h1.symm.trans h2
        exact Except.ok.inj this
      have : sel.toFinset = ∅ := by
        rw [hsel, hf]
        simp
      rw [List.toFinset_eq_empty_iff] at this
      exact absurd this hselE
    · have hw1 : w' s1 = w s1 := hloc s1 hs
      have h1' : list_all_files w' s1 = .ok f1 := by
        rw [list_all_files_congr w w' s1 hw1, h1]
      have h2' : list_all_files w' s2 = .ok (dirNames fs) := by
        simp [list_all_files, ha2, listDirAt, hfs]
      have hent : entityKeys (w s2) = f2 := by
        have hd := list_all_files_dirCase w s2 ha2
        rw [h2] at hd
        exact (Except.ok.inj hd).symm
      have hkeys' : dirNames fs = f2 ∪ (f1 \ f2) := by
        have hk := hkeys
        rw [hfs, hent, hsel] at hk
        exact hk
      have hsub : f1 \ dirNames fs = ∅ := by
        rw [hkeys', Finset.sdiff_eq_empty_iff_subset]
        intro x hx
        by_cases hxf2 : x ∈ f2
        · exact Finset.mem_union_left _ hxf2
        · exact Finset.mem_union_right _ (Finset.mem_sdiff.mpr ⟨hx, hxf2⟩)
      refine ⟨dirNames fs \ f1, ?_⟩
      have hrc : run_compare w' s1 s2 false = .ok (f1 \ dirNames fs, dirNames fs \ f1) := by
        simp [run_compare, h1', h2']
      rw [hrc, hsub]

/-- C4 witness: copying the single missing file `c` from `P` to `Q` leaves
nothing in `onlyInA` on the next name-mode comparison. -/
theorem C4_witness :
    isArchivePath "Q" = false ∧
    list_all_files c4World "P" = .ok {"a", "c"} ∧
    list_all_files c4World "Q" = .ok {"a"} ∧
    (["c"] : List String).toFinset = ({"a", "c"} : Finset String) \ {"a"} ∧
    copy_files c4World "P" "Q" ["c"] = (c4WorldAfter, none) ∧
    ∃ o2, run_compare c4WorldAfter "P" "Q" false = .ok (∅, o2) :=
  ⟨by decide, by decide, by decide, by decide, rfl,
   C4_round_trip c4World "P" "Q" {"a", "c"} {"a"} ["c"] c4WorldAfter
     (by decide) (by decide) (by decide) (by decide) rfl⟩

/-- C5 counterexample: with `a.txt` unreadable, `calculate_hashes` over
`["a.txt", "ok.txt"]` raises instead of returning a digest map — `ok.txt`
gets no digest and no failure report exists, even though hashing `ok.txt`
alone succeeds.  This refutes the claim that one member's read failure
leaves the rest of the batch hashed. -/
theorem C5_counterexample :
    calculate_hashes failWorld "S" ["a.txt", "ok.txt"] false = .error "PermissionError" ∧
    calculate_hashes failWorld "S" ["ok.txt"] false =
      .ok ([("ok.txt", sha256hex [1, 2, 3])], [(1, 1)]) :=
  ⟨by decide, by decide⟩

/-- C5 (amended): a read failure on one member aborts the whole batch — the
first failing worker's exception propagates out of `calculate_hashes`
(`future.result()` re-raises), no digest map is returned, and there is no
aggregate failure report. -/
theorem C5_read_failure_aborts_batch (w : World) (base : String) (pre : List String)
    (rel : String) (post : List String) (e : String)
    (hpre : ∀ x ∈ pre, ∃ v, hash_file_from_disk w base x = .ok v)
    (hrel : hash_file_from_disk w base rel = .error e) :
    calculate_hashes w base (pre ++ rel :: post) false = .error e := by
  show hashDiskBranch w base (pre ++ rel :: post) = .error e
  exact hashLoop_error _ _ rel e hrel pre post 1 [] [] hpre

/-- C5 witness: the amended abort behaviour at the concrete failing batch. -/
theorem C5_witness :
    hash_file_from_disk failWorld "S" "a.txt" = .error "PermissionError" ∧
    calculate_hashes failWorld "S" ["a.txt", "ok.txt"] false = .error "PermissionError" :=
  ⟨by decide,
   C5_read_failure_aborts_batch failWorld "S" [] "a.txt" ["ok.txt"] "PermissionError"
     (by simp) (by decide)⟩

/-- C6 counterexample: listing a nonexistent non-archive path returns the
empty listing (`os.walk` silently yields nothing), not a SourceNotFound
error, refuting the claim that a missing source always fails. -/
theorem C6_counterexample :
    missingWorld "missing" = Entity.absent ∧
    isArchivePath "missing" = false ∧
    list_all_files missingWorld "missing" = .ok ∅ :=
  ⟨rfl, by decide, by decide⟩

/-- C6 (amended): only archive-suffixed sources fail on a missing path
(`py7zr.SevenZipFile` raises FileNotFoundError); a missing directory-suffixed
source yields the empty listing instead of an error. -/
theorem C6_missing_source_behaviour :
    (∀ (w : World) (p : String), isArchivePath p = true → w p = .absent →
      list_all_files w p = .error "FileNotFoundError") ∧
    (∀ (w : World) (p : String), isArchivePath p = false → w p = .absent →
      list_all_files w p = .ok ∅) := by
  constructor
  · intro w p ha hw
    simp [list_all_files, ha, listArchiveAt, hw]
  · intro w p ha hw
    simp [list_all_files, ha, listDirAt, hw]

/-- C6 witness: both branches of the amended behaviour on concrete paths. -/
theorem C6_witness :
    isArchivePath "gone.7z" = true ∧ missingWorld "gone.7z" = Entity.absent ∧
    list_all_files missingWorld "gone.7z" = .error "FileNotFoundError" ∧
    isArchivePath "missing" = false ∧ missingWorld "missing" = Entity.absent ∧
    list_all_files missingWorld "missing" = .ok ∅ :=
  ⟨by decide, rfl, C6_missing_source_behaviour.1 missingWorld "gone.7z" (by decide) rfl,
   by decide, rfl, C6_missing_source_behaviour.2 missingWorld "missing" (by decide) rfl⟩

/-- C7 counterexample: with `a.txt` unreadable, copying `["a.txt", "ok.txt"]`
aborts at `a.txt` — the run reports only the propagated exception, and
`ok.txt` is never written to the destination even though copying it alone
succeeds.  This refutes per-item fault isolation of the copy loop. -/
theorem C7_counterexample :
    (copy_files failWorld "S" "D" ["a.txt", "ok.txt"]).2 = some "PermissionError" ∧
    (copy_files failWorld "S" "D" ["a.txt", "ok.txt"]).1 "D" = Entity.dir [] ∧
    (copy_files failWorld "S" "D" ["ok.txt"]).2 = none ∧
    (copy_files failWorld "S" "D" ["ok.txt"]).1 "D" = Entity.dir [("ok.txt", some [1, 2, 3])] :=
  ⟨by decide, by decide, by decide, by decide⟩

theorem copyLoop_append (src dst : String) :
    ∀ (pre : List String) (w w1 : World), copyLoop src dst w pre = (w1, none) →
      ∀ l, copyLoop src dst w (pre ++ l) = copyLoop src dst w1 l := by
  intro pre
  induction pre with
  | nil =>
    intro w w1 h l
    simp only [copyLoop, Prod.mk.injEq] at h
    rw [List.nil_append, h.1]
  | cons rel rest ih =>
    intro w w1 h l
    cases hr : readDisk w src rel with
    | error e => simp only [copyLoop, hr] at h; simp at h
    | ok data =>
      cases hwf : writeFile w dst rel data with
      | error e => simp only [copyLoop, hr, hwf] at h; simp at h
      | ok w2 =>
        simp only [copyLoop, hr, hwf] at h
        show copyLoop src dst w ((rel :: rest) ++ l) = _
        rw [List.cons_append]
        simp only [copyLoop, hr, hwf]
        exact ih w2 w1 h l

/-- C7 (amended): copy-back is not transactional and also not per-item
fault-isolated — once a path fails to copy, the run stops there: copies made
before the failure persist, the failing and all later paths are not written,
and the only report is the propagated exception. -/
theorem C7_copy_failure_aborts (w w1 : World) (src dst : String) (pre : List String)
    (rel : String) (rest : List String) (e : String)
    (ha : isArchivePath src = false)
    (hpre : copyLoop src dst w pre = (w1, none))
    (hrel : readDisk w1 src rel = .error e) :
    copy_files w src dst (pre ++ rel :: rest) = (w1, some e) := by
  unfold copy_files
  rw [ha]
  simp only [Bool.false_eq_true, if_false]
  rw [copyLoop_append src dst pre w w1 hpre (rel :: rest)]
  simp [copyLoop, hrel]

/-- C7 witness: the amended abort behaviour at the concrete failing
selection. -/
theorem C7_witness :
    isArchivePath "S" = false ∧
    readDisk failWorld "S" "a.txt" = .error "PermissionError" ∧
    copy_files failWorld "S" "D" ["a.txt", "ok.txt"] = (failWorld, some "PermissionError") :=
  ⟨by decide, by decide,
   C7_copy_failure_aborts failWorld failWorld "S" "D" [] "a.txt" ["ok.txt"] "PermissionError"
     (by decide) rfl (by decide)⟩

/-- C8: every digest `calculate_hashes` records is the SHA-256 hex digest of
the member's full byte content as read from its source; and streaming a
message through the hash context in fixed 8 KiB chunks produces the same
digest as hashing the whole content at once (for all contents, in particular
sizes 0, 1, 8191, 8192 and 8193). -/
theorem C8_digest_of_full_content :
    (∀ (w : World) (base : String) (fileList : List String) (isArch : Bool)
        (h : List (String × String)) (t : List (Nat × Nat)) (rel d : String),
      calculate_hashes w base fileList isArch = .ok (h, t) → (rel, d) ∈ h →
      ∃ content, readMember w base isArch rel = .ok content ∧ d = sha256hex content) ∧
    ∀ msg : List Nat, sha256_chunked 8192 msg = sha256 msg := by
  constructor
  · intro w base fileList isArch h t rel d hok hmem
    cases isArch with
    | false =>
      have hloop : hashLoop (hash_file_from_disk w base) fileList.length fileList 1 [] [] =
          .ok (h, t) := hok
      rcases hashLoop_ok_mem _ _ fileList 1 [] [] h t hloop (rel, d) hmem with hin | ⟨r, _, hwr⟩
      · exact absurd hin (List.not_mem_nil _)
      · unfold hash_file_from_disk at hwr
        cases hrd : readDisk w base r with
        | error e => rw [hrd] at hwr; exact absurd hwr (by simp)
        | ok content =>
          rw [hrd] at hwr
          simp only [Except.ok.injEq, Prod.mk.injEq] at hwr
          refine ⟨content, ?_, hwr.2.symm⟩
          show readDisk w base rel = .ok content
          rw [← hwr.1]
          exact hrd
    | true =>
      have harch : hashArchiveBranch w base fileList = .ok (h, t) := hok
      unfold hashArchiveBranch at harch
      cases hb : batchRead w base fileList with
      | error e => rw [hb] at harch; exact absurd harch (by simp)
      | ok batch =>
        rw [hb] at harch
        rcases hashLoop_ok_mem _ _ fileList 1 [] [] h t harch (rel, d) hmem with hin | ⟨r, _, hwr⟩
        · exact absurd hin (List.not_mem_nil _)
        · unfold archiveWorker at hwr
          cases hl : batch.lookup r with
          | none => rw [hl] at hwr; exact absurd hwr (by simp)
          | some fd =>
            rw [hl] at hwr
            simp only [hash_file_from_archive, Except.ok.injEq, Prod.mk.injEq] at hwr
            unfold batchRead at hb
            cases hw : w base with
            | dir files => rw [hw] at hb; exact absurd hb (by simp)
            | absent => rw [hw] at hb; exact absurd hb (by simp)
            | archive entries =>
              rw [hw] at hb
              have hfind := collectEntries_lookup entries fileList batch hb r fd hl
              refine ⟨fd, ?_, hwr.2.symm⟩
              show readMember w base true rel = .ok fd
              simp [readMember, hw, ← hwr.1, hfind]
  · exact sha256_chunked_eq_sha256 8192 (by omega)

/-- C8 witness: the recorded digest of `ok.txt` is the SHA-256 hex digest of
its full content `[1, 2, 3]`. -/
theorem C8_witness :
    calculate_hashes failWorld "S" ["ok.txt"] false =
      .ok ([("ok.txt", sha256hex [1, 2, 3])], [(1, 1)]) ∧
    ("ok.txt", sha256hex [1, 2, 3]) ∈ [("ok.txt", sha256hex [1, 2, 3])] ∧
    ∃ content, readMember failWorld "S" false "ok.txt" = .ok content ∧
      sha256hex [1, 2, 3] = sha256hex content :=
  ⟨by decide, by decide,
   C8_digest_of_full_content.1 failWorld "S" ["ok.txt"] false
     [("ok.txt", sha256hex [1, 2, 3])] [(1, 1)] "ok.txt" (sha256hex [1, 2, 3])
     (by decide) (by decide)⟩

/-- C9: in a hashing run over n members that completes, the progress callback
fires exactly n times, always with `total_count = n`, and the completed
counts are exactly 1, 2, ..., n in order (strictly increasing).  The model's
trace records the `(completed, total)` argument pairs in call order. -/
theorem C9_progress_trace (w : World) (base : String) (fileList : List String) (isArch : Bool)
    (h : List (String × String)) (t : List (Nat × Nat))
    (hok : calculate_hashes w base fileList isArch = .ok (h, t)) :
    t.length = fileList.length ∧ (∀ p ∈ t, p.2 = fileList.length) ∧
    t.map Prod.fst = List.range' 1 fileList.length := by
  have ht : t = (List.range' 1 fileList.length).map (fun j => (j, fileList.length)) := by
    cases isArch with
    | false =>
      have hloop : hashLoop (hash_file_from_disk w base) fileList.length fileList 1 [] [] =
          .ok (h, t) := hok
      simpa using hashLoop_ok_trace _ _ fileList 1 [] [] h t hloop
    | true =>
      have harch : hashArchiveBranch w base fileList = .ok (h, t) := hok
      unfold hashArchiveBranch at harch
      cases hb : batchRead w base fileList with
      | error e => rw [hb] at harch; exact absurd harch (by simp)
      | ok batch =>
        rw [hb] at harch
        simpa using hashLoop_ok_trace _ _ fileList 1 [] [] h t harch
  subst ht
  refine ⟨by simp, ?_, ?_⟩
  · intro p hp
    rcases List.mem_map.mp hp with ⟨j, _, rfl⟩
    rfl
  · rw [List.map_map]
    exact List.map_id _

/-- C9 witness: hashing the two members of `P` produces the trace
`[(1, 2), (2, 2)]`. -/
theorem C9_witness :
    calculate_hashes c2World "P" ["a", "b"] false =
      .ok ([("a", sha256hex [0]), ("b", sha256hex [1])], [(1, 2), (2, 2)]) ∧
    (([(1, 2), (2, 2)] : List (Nat × Nat)).length = (["a", "b"] : List String).length ∧
     (∀ p ∈ ([(1, 2), (2, 2)] : List (Nat × Nat)), p.2 = (["a", "b"] : List String).length) ∧
     ([(1, 2), (2, 2)] : List (Nat × Nat)).map Prod.fst =
       List.range' 1 (["a", "b"] : List String).length) :=
  ⟨by decide,
   C9_progress_trace c2World "P" ["a", "b"] false
     [("a", sha256hex [0]), ("b", sha256hex [1])] [(1, 2), (2, 2)] (by decide)⟩

/-- C10: all three operations classify a source as an archive via the single
predicate `isArchivePath`, which is exactly "the lowercased path string ends
with .7z" (equivalently, ".7z" is a suffix of the lowered character list);
the predicate reads only the path string, so the branch taken never depends
on what the filesystem holds at that path — listing, hashing and copy-back
each reduce to their archive branch when it holds and to their directory
branch otherwise, uniformly in the filesystem `w`. -/
theorem C10_archive_classification (p dst : String) (w : World) (fl sel : List String) :
    (isArchivePath p = pyEndsWith (pyLower p) ".7z") ∧
    (isArchivePath p = true ↔ ".7z".data <:+ (pyLower p).data) ∧
    list_all_files w p = (if isArchivePath p then listArchiveAt w p else listDirAt w p) ∧
    calculate_hashes w p fl (isArchivePath p) =
      (if isArchivePath p then hashArchiveBranch w p fl else hashDiskBranch w p fl) ∧
    copy_files w p dst sel =
      (if isArchivePath p then copyArchiveBranch w p dst sel else copyLoop p dst w sel) := by
  refine ⟨rfl, ?_, rfl, rfl, rfl⟩
  unfold isArchivePath pyEndsWith
  exact List.isSuffixOf_iff_suffix
